import Mathlib

/-!
Shallow embedding of `find-enrich.mjs` (Airtable domain/contact enricher).

The source file contains two near-duplicate versions of the program; per the
design notes of the specification the first, more elaborate version
(HEAD+GET fallback, brand matching, Cloudflare e-mail decoding, preferred
e-mail domain partition) is normative, and all line references in the claims
point into it.  This development embeds that version.

Modelling conventions:
* JS strings are Lean `String`s, manipulated through their `.data` character
  lists; all string helpers used by the program (`toLowerCase`, `trim`,
  `split`, `startsWith`, `endsWith`, `includes`) are re-defined here on
  character lists so that every definition is kernel-computable.  The JS
  functions are Unicode-aware; the model restricts case conversion and the
  letter/digit classes to ASCII, which covers every concrete value appearing
  in the program and the claims.
* JS `Array.prototype.sort` with comparator `(a,b) => f(b) - f(a)` is a
  stable descending sort by the numeric key `f`.  It is modelled by the
  stable insertion sort `jsSortByDesc`; any two stable sorts of the same
  total preorder agree pointwise, so the model is extensionally faithful.
* Every numeric comparator score in the program is a multiple of 1/2
  (`+0.5` bonuses).  Scores are embedded as `Int` values holding TWICE the
  JS score, which preserves all comparisons and keeps them
  kernel-decidable.  The brand-match ratio, which is never used as a sort
  key, is kept as an exact `Rat`.
* Network effects (DNS, HTTP, page fetching) are external collaborators and
  enter as oracle parameters (`String → Bool` liveness verdicts, a
  `String → ContactsOut` contact-discovery oracle for `processRecord`).
-/

namespace FindEnrich

/-! ### Generic string helpers (ASCII models of the JS built-ins) -/

/-- The JS `\s` class, restricted to its ASCII members. -/
def jsSpace (c : Char) : Bool :=
  c = ' ' || c = '\t' || c = '\n' || c = '\r' || c = '\x0b' || c = '\x0c'

/-- ASCII model of `String.prototype.toLowerCase` on a single character. -/
def jsToLower (c : Char) : Char :=
  if 65 ≤ c.toNat ∧ c.toNat ≤ 90 then Char.ofNat (c.toNat + 32) else c

/-- Model of `toLowerCase` on a whole string. -/
def jsLower (s : String) : String :=
  String.mk (s.data.map jsToLower)

/-- Model of `String.prototype.trim` (ASCII whitespace model). -/
def jsTrim (s : String) : String :=
  String.mk (((s.data.dropWhile jsSpace).reverse.dropWhile jsSpace).reverse)

/-- Model of `String.prototype.startsWith`. -/
def strStartsWith (s pre : String) : Bool :=
  pre.data.isPrefixOf s.data

/-- Model of `String.prototype.endsWith`. -/
def strEndsWith (s suf : String) : Bool :=
  suf.data.isSuffixOf s.data

/-- JS `s.split(sep)` for a one-character separator (and, composed with a
`filter (· ≠ [])`, JS `s.split(/sep+/).filter(Boolean)`): splits at every
separator character, keeping the empty pieces between adjacent separators. -/
def splitBy (p : Char → Bool) (cs : List Char) : List (List Char) :=
  cs.foldr
    (fun c acc =>
      if p c then [] :: acc
      else
        match acc with
        | [] => [[c]]
        | t :: ts => (c :: t) :: ts)
    [[]]

/-- JS `Array.prototype.join(' ')` on character-list tokens. -/
def joinSp : List (List Char) → List Char
  | [] => []
  | [t] => t
  | t :: ts => t ++ ' ' :: joinSp ts

/-- The whitespace-separated tokens of a string (no empty tokens). -/
def spaceTokens (s : String) : List (List Char) :=
  (splitBy jsSpace s.data).filter (· ≠ [])

/-- Helper for `replaceRuns`: the `Bool` flag records whether the previous
character belonged to a run, so the replacement is emitted once per run. -/
def replaceRunsAux (p : Char → Bool) (rep : List Char) : Bool → List Char → List Char
  | _, [] => []
  | inRun, c :: cs =>
    if p c then (if inRun then [] else rep) ++ replaceRunsAux p rep true cs
    else c :: replaceRunsAux p rep false cs

/-- JS `s.replace(/run+/g, rep)`: every maximal run of characters satisfying
`p` is replaced by `rep`. -/
def replaceRuns (p : Char → Bool) (rep : List Char) (l : List Char) : List Char :=
  replaceRunsAux p rep false l

/-- JS `s.split(/sep+/)`: run-based split, keeping the empty boundary pieces
(`",a".split(/,+/) = ["", "a"]`).  A separator character opens a new piece
only when the character after it is not itself a separator (so a run makes a
single cut). -/
def splitRuns (p : Char → Bool) : List Char → List (List Char)
  | [] => [[]]
  | c :: cs =>
    let r := splitRuns p cs
    if p c then
      match cs with
      | [] => [] :: r
      | c' :: _ => if p c' then r else [] :: r
    else
      match r with
      | [] => [[c]]
      | t :: ts => (c :: t) :: ts

/-- JS `Set` insertion: append if not already present (JS sets preserve
insertion order). -/
def pushUnique (l : List String) (x : String) : List String :=
  if x ∈ l then l else l ++ [x]

/-- JS `arr.join(sep)`. -/
def joinWith (sep : String) : List String → String
  | [] => ""
  | [x] => x
  | x :: xs => x ++ sep ++ joinWith sep xs

/-- Decompose a list into consecutive chunks of `n` elements (the last chunk
may be shorter).  This is exactly what the loop
`for (i = 0; i < TOP; i += 5) cands.slice(i, i+5)` visits: since `TOP` is at
most 40 (a multiple of 5) and `slice` clamps to the array length, the slices
are precisely the 5-chunks of the first `TOP` candidates. -/
def chunksOfAux (n : Nat) : Nat → List α → List (List α)
  | 0, _ => []
  | _, [] => []
  | fuel + 1, x :: xs =>
    if n = 0 then []
    else (x :: xs).take n :: chunksOfAux n fuel ((x :: xs).drop n)

/-- Entry point of the fuel recursion: `l.length` steps always suffice,
since each step drops at least one element. -/
def chunksOf (n : Nat) (l : List α) : List (List α) := chunksOfAux n l.length l

/-! ### Stable descending sort (model of `.sort((a,b) => f(b) - f(a))`) -/

/-- Stable insertion into a descending-sorted list: the new element, which is
earlier in the original array, goes before any element of equal key. -/
def insertDesc (f : α → Int) (x : α) : List α → List α
  | [] => [x]
  | y :: ys => if f y ≤ f x then x :: y :: ys else y :: insertDesc f x ys

/-- Stable descending sort by integer key, the model of JS
`Array.prototype.sort((a,b) => f(b) - f(a))` (stable per the ECMAScript
specification). -/
def jsSortByDesc (f : α → Int) : List α → List α
  | [] => []
  | x :: xs => insertDesc f x (jsSortByDesc f xs)

/-- The first element of maximal key: what `sorted[0]` yields for a stable
descending sort. -/
def firstMaxBy (f : α → Int) : List α → Option α
  | [] => none
  | x :: xs =>
    some ((firstMaxBy f xs).elim x (fun m => if f x < f m then m else x))

/-! ### Name normalizer (`cleanName`, source lines 126-130) -/

/-- The stop-word list of `cleanName`. -/
def cleanDrop : List String :=
  ["limited", "ltd", "plc", "llp", "inc", "corp", "corporation", "company",
   "tech", "technologies", "technology", "solutions", "solution", "group",
   "holdings", "services", "consulting", "consultancy", "studio", "labs",
   "lab", "digital", "global", "international", "uk", "co"]

/-- The punctuation class stripped by `cleanName`'s
`replace(/[.,/\\'"&()\[\]{}!@#$%^*?+:=]+/g, ' ')`.  Note that this is an
explicit character list: punctuation outside it (`;`, `_`, `<`, …) is NOT
stripped. -/
def stripPunct (c : Char) : Bool :=
  decide (c ∈ (['.', ',', '/', '\\', '\'', '"', '&', '(', ')', '[', ']',
                '\x7b', '\x7d', '!', '@', '#', '$', '%', '^', '*', '?', '+',
                ':', '='] : List Char))

/-- Model of `cleanName` (source lines 126-130): lower-case, replace runs of the
stripped punctuation by a space, collapse whitespace, trim, split on spaces,
drop stop words, re-join with single spaces.  The chain
`replace(/\s+/g,' ').trim().split(' ')` applied after the punctuation
replacement yields exactly the maximal whitespace-free runs of the string
(`splitBy jsSpace · |>.filter (· ≠ [])`); the only divergent case, the empty
string, yields `[""]` in JS, and since `""` is not a stop word both sides
produce `""`. -/
def cleanChar (c : Char) : Char :=
  if stripPunct (jsToLower c) then ' ' else jsToLower c

/-- Model of `cleanName` itself: map `cleanChar`, tokenize on whitespace, drop stop
words, join with single spaces. -/
def cleanName (raw : String) : String :=
  let cs := raw.data.map cleanChar
  let toks := (splitBy jsSpace cs).filter (· ≠ [])
  let kept := toks.filter (fun t => decide (String.mk t ∉ cleanDrop))
  String.mk (joinSp kept)

/-! ### Candidate generation (source lines 132-162) -/

/-- Model of `variants` (source lines 132-143): name forms inserted into a JS `Set`
(first-occurrence order preserved). -/
def variants (name : String) : List String :=
  let nospace := String.mk (name.data.filter (fun c => !jsSpace c))
  let hyph := String.mk (replaceRuns jsSpace ['-'] name.data)
  let v0 := pushUnique (pushUnique (pushUnique [] name) nospace) hyph
  let parts := ((splitBy (fun c => c == ' ') name.data).map String.mk).filter
    (fun s => decide (s ≠ ""))
  let noVowels := String.mk
    ((name.data.filter (fun c => decide (c ∉ (['a', 'e', 'i', 'o', 'u'] : List Char)))).filter
      (fun c => !jsSpace c))
  let v1 := if noVowels.length ≥ 5 then pushUnique v0 noVowels else v0
  if parts.length ≥ 2 then
    let p0 := parts.headD ""
    let pl := parts.getLastD ""
    let inits := String.join ((parts.dropLast).map (fun p => String.mk (p.data.take 1)))
    pushUnique (pushUnique (pushUnique v1 (p0 ++ pl)) (p0 ++ "-" ++ pl)) (inits ++ pl)
  else v1

/-- Model of `tldsForCountry` (source lines 145-153). -/
def tldsForCountry (country : String) : List String :=
  let common := [".com", ".co.uk", ".co", ".ai", ".io", ".net", ".org", ".uk"]
  if country = "" then common
  else
    let c := jsLower country
    if c ∈ (["uk", "united kingdom", "england", "scotland", "wales",
             "northern ireland"] : List String) then
      [".co.uk", ".uk", ".com", ".co", ".ai", ".io", ".net", ".org"]
    else common

/-- Model of `score` (source lines 155-162).  All summands are integers, so no score
doubling is needed here. -/
def score (domain : String) : Int :=
  (if strEndsWith domain ".co.uk" then 6 else 0) +
  (if strEndsWith domain ".com" then 5 else 0) +
  (if domain.data.contains '-' then -1 else 0) +
  (if domain.length ≤ 12 then 1 else 0)

/-! ### Domain verification and selection (source lines 58-100, 164-187)

DNS and HTTP liveness are network effects; they enter as the oracles
`dns http : String → Bool`.  `verify` combines them exactly as the source
does (`ok = dnsOk || httpOk`). -/

/-- The `VerificationResult` record produced by `verify`. -/
structure VerRes where
  domain : String
  dnsOk : Bool
  httpOk : Bool
  ok : Bool
deriving DecidableEq

/-- Model of `verify` (source lines 97-100) with the two probes as oracles. -/
def verify (dns http : String → Bool) (domain : String) : VerRes :=
  { domain := domain, dnsOk := dns domain, httpOk := http domain,
    ok := dns domain || http domain }

/-- The "strong hit" test of `bestDomainFor` (source line 179). -/
def strongHit (r : VerRes) : Bool :=
  r.ok && (strEndsWith r.domain ".co.uk" || strEndsWith r.domain ".com")

/-- Sort key used on verification results: `score(r.domain)`. -/
def domScore (r : VerRes) : Int := score r.domain

/-- The candidate pool before sorting (source line 169:
`for (n of variants) for (t of tlds) cands.push(n + t)`). -/
def rawCandidates (cleaned country : String) : List String :=
  (variants cleaned).flatMap (fun n => (tldsForCountry country).map (fun t => n ++ t))

/-- Model of `cands.sort((a,b) => score(b) - score(a))` (source line 170). -/
def sortedCandidates (cleaned country : String) : List String :=
  jsSortByDesc score (rawCandidates cleaned country)

/-- The batch loop of `bestDomainFor` (source lines 173-186), processing the
batches produced by `chunksOf 5`.  On a strong hit it returns
`verified[0] || strong` (the sorted alive candidates are never empty in that
branch, so the `|| strong` default is inert); after the last batch it
returns `verified[0] || null`. -/
def bdLoop (dns http : String → Bool) (checked : List VerRes) :
    List (List String) → List VerRes × Option VerRes
  | [] => (checked, (jsSortByDesc domScore (checked.filter (·.ok))).head?)
  | b :: bs =>
    let res := b.map (verify dns http)
    let checked2 := checked ++ res
    match res.find? strongHit with
    | some strong =>
      (checked2, some ((jsSortByDesc domScore (checked2.filter (·.ok))).headD strong))
    | none => bdLoop dns http checked2 bs

/-- Model of `bestDomainFor` (source lines 164-187).  `TOP = min(40, cands.length)`;
since `slice(i, i+5)` clamps to the array length and `40` is a multiple of
5, the loop `for (i = 0; i < TOP; i += 5) cands.slice(i, i+5)` visits
exactly the 5-chunks of the first `TOP` sorted candidates. -/
def bestDomainFor (dns http : String → Bool) (name country : String) :
    List VerRes × Option VerRes :=
  let cleaned := cleanName name
  if cleaned = "" then ([], none)
  else
    let cands := sortedCandidates cleaned country
    bdLoop dns http [] (chunksOf 5 (cands.take (min 40 cands.length)))

/-! ### The e-mail plausibility regex `EMAIL_RE` (source line 190)

`/[A-Z0-9._%+-]+@[A-Z0-9.-]+\.[A-Z]{2,}/gi` — used (only) by the full-text
scan of `extractContactsFromUrl`.  `emailReHasMatch` decides whether the
regex finds a match anywhere in a string, via an explicit nondeterministic
matcher: a match exists iff some suffix starts with one-or-more local-part
characters, `@`, one-or-more domain characters, `.`, and two letters. -/

/-- The class `[A-Z0-9._%+-]` under the `i` flag. -/
def emailLocalChar (c : Char) : Bool :=
  c.isAlpha || c.isDigit || c == '.' || c == '_' || c == '%' || c == '+' || c == '-'

/-- The class `[A-Z0-9.-]` under the `i` flag. -/
def emailDomChar (c : Char) : Bool :=
  c.isAlpha || c.isDigit || c == '.' || c == '-'

/-- All suffixes reachable by consuming one or more characters satisfying
`p` from the front. -/
def afterOnePlus (p : Char → Bool) : List Char → List (List Char)
  | [] => []
  | c :: rest => if p c then rest :: afterOnePlus p rest else []

/-- Does a match of `EMAIL_RE` start at the head of this character list? -/
def emailMatchTail (cs : List Char) : Bool :=
  (afterOnePlus emailLocalChar cs).any fun s1 =>
    match s1 with
    | '@' :: s2 =>
      (afterOnePlus emailDomChar s2).any fun s3 =>
        match s3 with
        | '.' :: a :: b :: _ => a.isAlpha && b.isAlpha
        | _ => false
    | _ => false

/-- Does `EMAIL_RE` match anywhere in `s`? -/
def emailReHasMatch (s : String) : Bool :=
  s.data.tails.any emailMatchTail

/-! ### Phone normalization and ranking (source lines 193-215) -/

/-- The class kept by `replace(/[^+\d]/g, '')`. -/
def keepPhoneChar (c : Char) : Bool := c == '+' || c.isDigit

/-- The two sequential prefix rewrites of `normalizePhone`:
`0044…` becomes `+44…` (`'+' + s.slice(2)`), then a bare leading `44`
gains a `+`. -/
def ukPrefixRewrite (s : List Char) : List Char :=
  let s1 := if s.take 4 = ['0', '0', '4', '4'] then '+' :: s.drop 2 else s
  if s1.take 2 = ['4', '4'] ∧ s1.take 1 ≠ ['+'] then '+' :: s1 else s1

/-- Model of `normalizePhone` (source lines 193-199). -/
def normalizePhone (p : String) : String :=
  if p = "" then "" else String.mk (ukPrefixRewrite (p.data.filter keepPhoneChar))

/-- Model of `isLikelyPhone` (source lines 201-203), the regex `^\+?\d{10,15}$`:
an optional leading `+` followed by 10-15 digits and nothing else. -/
def isLikelyPhone (n : String) : Bool :=
  let ds := if n.data.headD ' ' = '+' then n.data.tail else n.data
  ds.all Char.isDigit && decide (10 ≤ ds.length) && decide (ds.length ≤ 15)

/-- The regex `^\+44\d{9,11}$` (UK bias bonus in `pickBestPhone`). -/
def ukPhoneShape (n : String) : Bool :=
  match n.data with
  | '+' :: '4' :: '4' :: rest =>
    rest.all Char.isDigit && decide (9 ≤ rest.length) && decide (rest.length ≤ 11)
  | _ => false

/-- Doubled comparator score of `pickBestPhone` (JS: `+2` for UK shape,
`+0.5` for length 11-13; stored ×2 as `4` and `1`). -/
def phoneScore (n : String) : Int :=
  (if ukPhoneShape n then 4 else 0) +
  (if 11 ≤ n.length ∧ n.length ≤ 13 then 1 else 0)

/-- Model of `pickBestPhone` (source lines 205-215): normalize, keep plausible
numbers, stable-sort by score descending, return the first. -/
def pickBestPhone (phones : List String) : String :=
  let arr := (phones.map normalizePhone).filter isLikelyPhone
  if arr.isEmpty then ""
  else ((jsSortByDesc Prod.snd (arr.map (fun n => (n, phoneScore n)))).headD ("", 0)).1

/-! ### E-mail ranking (source lines 217-240) -/

/-- The free consumer mail providers de-prioritised by `pickBestEmail`. -/
def freeDomains : List String :=
  ["gmail.com", "yahoo.com", "hotmail.com", "outlook.com", "live.com",
   "aol.com", "icloud.com", "proton.me", "protonmail.com"]

/-- The local-part priority list of `pickBestEmail`. -/
def emailRanks : List String := ["info@", "contact@", "hello@", "support@", "enquiries@"]

/-- JS `s.split('@')[1] || ''`. -/
def splitAt1 (s : String) : String :=
  String.mk ((splitBy (fun c => c == '@') s.data).getD 1 [])

/-- JS `e.split('@')[1]?.toLowerCase() || ''`. -/
def emailDomain (e : String) : String := jsLower (splitAt1 e)

/-- The partition test of `pickBestEmail` (source line 225):
`preferredDomain && d && (preferredDomain.endsWith(d) || d.endsWith(preferredDomain))`. -/
def preferTest (preferredDomain e : String) : Bool :=
  if preferredDomain = "" then false
  else
    let d := emailDomain e
    if d = "" then false
    else strEndsWith preferredDomain d || strEndsWith d preferredDomain

/-- Doubled comparator score of `pickBestEmail` (JS: `ranks.length - i` for
a matching prefix, `+0.5` for no `+` tag, `+0.5` for a non-free domain;
stored ×2). -/
def emailScore (e : String) : Int :=
  let lower := jsLower e
  let rankScore := (emailRanks.enum).foldl
    (fun s pi =>
      if strStartsWith lower pi.2 then s + 2 * ((emailRanks.length : Int) - (pi.1 : Int))
      else s) 0
  rankScore + (if lower.data.contains '+' then 0 else 1) +
    (if splitAt1 lower ∈ freeDomains then 0 else 1)

/-- Model of `pickBestEmail` (source lines 217-240). -/
def pickBestEmail (emails : List String) (preferredDomain : String) : String :=
  let arr := (emails.map jsTrim).filter (fun e => decide (e ≠ ""))
  if arr.isEmpty then ""
  else
    let part := arr.partition (preferTest preferredDomain)
    let pool := if part.1.isEmpty then part.2 else part.1
    ((jsSortByDesc Prod.snd (pool.map (fun e => (e, emailScore e)))).headD ("", 0)).1

/-! ### Cloudflare e-mail deobfuscation (source lines 243-253) -/

/-- The numeric value of a hex digit (`0-9`, `a-f`, `A-F`). -/
def hexDigitVal (c : Char) : Option Nat :=
  if 48 ≤ c.toNat ∧ c.toNat ≤ 57 then some (c.toNat - 48)
  else if 97 ≤ c.toNat ∧ c.toNat ≤ 102 then some (c.toNat - 87)
  else if 65 ≤ c.toNat ∧ c.toNat ≤ 70 then some (c.toNat - 55)
  else none

/-- JS `parseInt(two-character slice, 16)` restricted to the unsigned hex
fragment the obfuscation scheme emits: the maximal hex-digit prefix is
parsed, `none` models `NaN`. -/
def jsParseHex2 : List Char → Option Nat
  | [] => none
  | [c] => hexDigitVal c
  | c1 :: c2 :: _ =>
    match hexDigitVal c1 with
    | none => none
    | some v1 =>
      match hexDigitVal c2 with
      | none => some v1
      | some v2 => some (16 * v1 + v2)

/-- The decode loop of `decodeCfEmail`: each two-character slice is parsed
and XORed with the key.  A `NaN` (`none`) parse participates in JS `^` as
`0`, which `Option.getD 0` reproduces. -/
def decodeLoop (e : Nat) : List Char → List Char
  | [] => []
  | [c] => [Char.ofNat ((jsParseHex2 [c]).getD 0 ^^^ e)]
  | c1 :: c2 :: rest =>
    Char.ofNat ((jsParseHex2 [c1, c2]).getD 0 ^^^ e) :: decodeLoop e rest

/-- Model of `decodeCfEmail` (source lines 243-253): the first byte is the XOR key,
the remaining hex pairs decode to the character codes.  With fewer than two
characters the loop body never runs and the result is `""` (also matching a
`NaN` key, which leaves the empty accumulator untouched). -/
def decodeCfEmail (hex : String) : String :=
  match hex.data with
  | c1 :: c2 :: rest => String.mk (decodeLoop ((jsParseHex2 [c1, c2]).getD 0) rest)
  | _ => ""

/-- A lowercase hex digit. -/
def toHexDigit (n : Nat) : Char :=
  Char.ofNat (if n < 10 then 48 + n else 87 + n)

/-- Two-digit hex encoding of a byte. -/
def toHex2 (n : Nat) : List Char := [toHexDigit (n / 16), toHexDigit (n % 16)]

/-- The Cloudflare obfuscation encoding that `decodeCfEmail` inverts: the
key byte in hex followed by each data byte XOR key in hex. -/
def encodeCfEmail (key : Nat) (bytes : List Nat) : String :=
  String.mk (toHex2 key ++ bytes.flatMap (fun b => toHex2 (b ^^^ key)))

/-! ### SIC → industry (source lines 362-403) -/

/-- One entry of the static section table: numeric range and label. -/
structure SICSection where
  lo : Nat
  hi : Nat
  name : String
deriving DecidableEq

/-- Model of `SIC_SECTIONS` (source lines 362-384). -/
def SIC_SECTIONS : List SICSection :=
  [⟨1, 3, "A — Agriculture, Forestry & Fishing"⟩,
   ⟨5, 9, "B — Mining & Quarrying"⟩,
   ⟨10, 33, "C — Manufacturing"⟩,
   ⟨35, 35, "D — Electricity, Gas, Steam & Air Conditioning"⟩,
   ⟨36, 39, "E — Water Supply; Sewerage, Waste Management & Remediation"⟩,
   ⟨41, 43, "F — Construction"⟩,
   ⟨45, 47, "G — Wholesale & Retail Trade; Repair of Motor Vehicles & Motorcycles"⟩,
   ⟨49, 53, "H — Transportation & Storage"⟩,
   ⟨55, 56, "I — Accommodation & Food Service Activities"⟩,
   ⟨58, 63, "J — Information & Communication"⟩,
   ⟨64, 66, "K — Financial & Insurance Activities"⟩,
   ⟨68, 68, "L — Real Estate Activities"⟩,
   ⟨69, 75, "M — Professional, Scientific & Technical Activities"⟩,
   ⟨77, 82, "N — Administrative & Support Service Activities"⟩,
   ⟨84, 84, "O — Public Administration & Defence; Compulsory Social Security"⟩,
   ⟨85, 85, "P — Education"⟩,
   ⟨86, 88, "Q — Human Health & Social Work Activities"⟩,
   ⟨90, 93, "R — Arts, Entertainment & Recreation"⟩,
   ⟨94, 96, "S — Other Service Activities"⟩,
   ⟨97, 98, "T — Activities of Households as Employers; Undifferentiated Goods- & Services-Producing Activities of Households for Own Use"⟩,
   ⟨99, 99, "U — Activities of Extraterritorial Organisations & Bodies"⟩]

/-- The maximal decimal-digit prefix value, `none` when there is none
(models the digit-consuming core of JS `parseInt(·, 10)`). -/
def digitsPrefixVal (cs : List Char) : Option Nat :=
  let ds := cs.takeWhile Char.isDigit
  if ds.isEmpty then none
  else some (ds.foldl (fun a c => 10 * a + (c.toNat - 48)) 0)

/-- JS `parseInt(s, 10)` on an already-trimmed short string: optional sign,
then the maximal digit prefix; `none` models `NaN`. -/
def jsParseIntDec : List Char → Option Int
  | '-' :: rest => (digitsPrefixVal rest).map (fun n => -(n : Int))
  | '+' :: rest => (digitsPrefixVal rest).map (fun n => (n : Int))
  | cs => (digitsPrefixVal cs).map (fun n => (n : Int))

/-- Model of `lookupIndustryFromSICCode` (source lines 386-392). -/
def lookupIndustryFromSICCode (sicCode : String) : String :=
  if sicCode = "" then ""
  else
    match jsParseIntDec ((jsTrim sicCode).data.take 2) with
    | none => ""
    | some two =>
      match SIC_SECTIONS.find? (fun s => decide ((s.lo : Int) ≤ two ∧ two ≤ (s.hi : Int))) with
      | some sec => sec.name
      | none => ""

/-- The separator class of `String(v).split(/[,;/\s]+/)`. -/
def sicSep (c : Char) : Bool := c == ',' || c == ';' || c == '/' || jsSpace c

/-- Model of `deriveIndustryFromSICField` (source lines 394-403) for a string field
value (the `Array.isArray` branch is not exercised by any claim).  The JS
`Set` of labels is modelled by order-preserving deduplicated insertion. -/
def deriveIndustryFromSICField (v : String) : String :=
  if v = "" then ""
  else
    let values := (splitRuns sicSep v.data).map String.mk
    let labels := values.foldl
      (fun acc raw =>
        let label := lookupIndustryFromSICCode raw
        if label = "" then acc
        else if label ∈ acc then acc else acc ++ [label]) []
    joinWith " | " labels

/-! ### Brand matching (source lines 103-123) -/

/-- The stop-word set of `tokenizeCompany` (distinct from `cleanName`'s). -/
def tokenizeDropWords : List String :=
  ["limited", "ltd", "plc", "llp", "inc", "corp", "corporation", "company",
   "group", "holdings", "services", "uk", "co", "cic"]

/-- The class kept by `replace(/[^\p{L}\p{N}\s-]/gu, ' ')` (ASCII model of
the Unicode letter/number classes). -/
def tokenKeep (c : Char) : Bool := c.isAlpha || c.isDigit || jsSpace c || c == '-'

/-- Model of `tokenizeCompany` (source lines 103-111). -/
def tokenizeCompany (name : String) : List String :=
  let cs := (name.data.map jsToLower).map (fun c => if tokenKeep c then c else ' ')
  (((splitBy jsSpace cs).filter (· ≠ [])).map String.mk).filter
    (fun t => decide (t ∉ tokenizeDropWords))

/-- Model of `brandMatchScore` (source lines 113-123): the fraction of name tokens of
length ≥ 3 found verbatim in the lower-cased page text.  Kept as an exact
rational; it is only ever compared against the 0.4 threshold. -/
def brandMatchScore (company htmlText : String) : Rat :=
  if company = "" ∨ htmlText = "" then 0
  else
    let tokens := tokenizeCompany company
    if tokens.isEmpty then 0
    else
      let text := jsLower htmlText
      let hits := tokens.countP (fun t => decide (3 ≤ t.length) && decide (t.data <:+: text.data))
      (hits : Rat) / (tokens.length : Rat)

/-! ### Status derivation and record processing (source lines 444-520) -/

/-- The status block of `processRecord` (source lines 491-502).  `brandOk`
is `none` when `rec.__BRAND_OK` was never assigned (contacts step skipped);
only `some false` (defined and false) selects the downgraded status. -/
def statusFor (domain email phone : String) (brandOk : Option Bool) : String :=
  if domain = "" ∧ email = "" ∧ phone = "" then "No domain or contacts found"
  else if domain ≠ "" ∧ email = "" ∧ phone = "" then "Domain only"
  else if domain ≠ "" ∧ (email ≠ "" ∨ phone ≠ "") then
    if brandOk = some false then "Domain only (unverified brand match)" else "OK"
  else "Partial"

/-- The output of `discoverContacts` consumed by `processRecord`: best
e-mail, best phone, homepage text for brand matching.  Contact discovery
crawls the network and enters `processRecord` as an oracle producing this
record. -/
structure ContactsOut where
  email : String
  phone : String
  brandText : String

/-- The fields `processRecord` reads from an Airtable record (blank = ""). -/
structure RecordIn where
  company : String
  country : String
  sicRaw : String
  domain : String
  email : String
  phone : String
  industry : String

/-- The patch written back by `processRecord`.  Optional fields are included
only when truthy; the status field is always present, as is the
`Last Enriched At` ISO timestamp (always written, not modelled further). -/
structure Patch where
  domain : Option String
  email : Option String
  phone : Option String
  industry : Option String
  status : String

/-- Model of `processRecord` (source lines 444-520), with domain verification and
contact discovery as oracles.  Field updates follow the source exactly:
a resolved value only fills a blank field, the brand verdict is recorded
only when the contacts step runs, the industry is derived only when blank
and a SIC value is present. -/
def processRecord (dns http : String → Bool) (contacts : String → ContactsOut)
    (r : RecordIn) : Patch :=
  let domain := if r.domain = "" then
      match (bestDomainFor dns http r.company r.country).2 with
      | some pick => pick.domain
      | none => ""
    else r.domain
  let runContacts := domain ≠ "" ∧ (r.email = "" ∨ r.phone = "")
  let c := contacts domain
  let email := if runContacts ∧ r.email = "" ∧ c.email ≠ "" then c.email else r.email
  let phone := if runContacts ∧ r.phone = "" ∧ c.phone ≠ "" then c.phone else r.phone
  let brandOk : Option Bool :=
    if runContacts then some (decide ((0.4 : Rat) ≤ brandMatchScore r.company c.brandText))
    else none
  let industry :=
    if r.industry = "" ∧ r.sicRaw ≠ "" ∧ deriveIndustryFromSICField r.sicRaw ≠ "" then
      deriveIndustryFromSICField r.sicRaw
    else r.industry
  { domain := if domain ≠ "" then some domain else none,
    email := if email ≠ "" then some email else none,
    phone := if phone ≠ "" then some phone else none,
    industry := if industry ≠ "" then some industry else none,
    status := statusFor domain email phone brandOk }

/-! ### Specification-side definitions (written from the claims' wording,
to be compared with the embedded code) -/

/-- Claim C5's status table, written from the specification's wording:
confident-or-unmeasured brand match is `brand ≠ some false`. -/
def statusSpecC5 (domain email phone : String) (brand : Option Bool) : String :=
  if domain = "" ∧ email = "" ∧ phone = "" then "No domain or contacts found"
  else if domain ≠ "" ∧ email = "" ∧ phone = "" then "Domain only"
  else if domain ≠ "" ∧ (email ≠ "" ∨ phone ≠ "") ∧ brand ≠ some false then "OK"
  else if domain ≠ "" ∧ (email ≠ "" ∨ phone ≠ "") ∧ brand = some false then
    "Domain only (unverified brand match)"
  else "Partial"

/-- Spec side of C2: process verification batches up to and including the
first one containing a strong hit ("stop early"), or all of them. -/
def takeThroughStrong : List (List VerRes) → List (List VerRes)
  | [] => []
  | b :: bs => if b.any strongHit then [b] else b :: takeThroughStrong bs

/-- Spec side of C2: "the best-scored alive candidate among all candidates
checked, or null if none verified alive" — the earliest candidate of
maximal score among those with `ok` (earliest because the sort is
stable). -/
def bestAliveOf (checked : List VerRes) : Option VerRes :=
  firstMaxBy domScore (checked.filter (·.ok))

/-- Spec side of C2, assembled from the claim's wording: cap the sorted
candidate list to the top 40, verify in batches of 5, stop after the first
batch with a strong hit, and pick the best-scored alive candidate among
everything checked. -/
def bestDomainForSpec (dns http : String → Bool) (name country : String) :
    List VerRes × Option VerRes :=
  let cleaned := cleanName name
  if cleaned = "" then ([], none)
  else
    let capped := (sortedCandidates cleaned country).take 40
    let batchResults := (chunksOf 5 capped).map (·.map (verify dns http))
    let checked := (takeThroughStrong batchResults).flatten
    (checked, bestAliveOf checked)

/-- The character class asserted by claim C6's wording: "only letters,
digits, hyphens, and single spaces remain". -/
def claimedCleanChar (c : Char) : Bool := c.isAlphanum || c == '-' || c == ' '

/-- The number of decimal digits in a string (the count the plausibility
filter constrains to 10-15). -/
def digitCount (s : String) : Nat := (s.data.filter Char.isDigit).length

/-- The record of claim C3's end-to-end scenario. -/
def acmeRecord : RecordIn :=
  { company := "Acme Widgets Ltd", country := "", sicRaw := "25110",
    domain := "", email := "", phone := "", industry := "" }

/-- Claim C3's scenario: every probe fails and every fetch is empty. -/
def acmeOfflinePatch : Patch :=
  processRecord (fun _ => false) (fun _ => false)
    (fun _ => { email := "", phone := "", brandText := "" }) acmeRecord

theorem insertDesc_ne_nil (f : α → Int) (x : α) (l : List α) :
    insertDesc f x l ≠ [] := by
  cases l with
  | nil => simp [insertDesc]
  | cons y ys =>
    simp only [insertDesc]
    split <;> simp

theorem jsSortByDesc_eq_nil_iff (f : α → Int) (l : List α) :
    jsSortByDesc f l = [] ↔ l = [] := by
  cases l with
  | nil => simp [jsSortByDesc]
  | cons x xs =>
    simp only [jsSortByDesc]
    exact ⟨fun h => absurd h (insertDesc_ne_nil f x _), fun h => by simp at h⟩

theorem head?_insertDesc (f : α → Int) (x : α) (l : List α) :
    (insertDesc f x l).head? =
      some (match l.head? with
            | none => x
            | some y => if f y ≤ f x then x else y) := by
  cases l with
  | nil => simp [insertDesc]
  | cons y ys =>
    simp only [insertDesc, List.head?_cons]
    split <;> simp

theorem head?_jsSortByDesc (f : α → Int) (l : List α) :
    (jsSortByDesc f l).head? = firstMaxBy f l := by
  induction l with
  | nil => simp [jsSortByDesc, firstMaxBy]
  | cons x xs ih =>
    simp only [jsSortByDesc, firstMaxBy, head?_insertDesc]
    rw [← ih]
    cases hs : (jsSortByDesc f xs).head? with
    | none => simp
    | some y =>
      simp only [Option.elim_some]
      by_cases hle : f y ≤ f x
      · rw [if_pos hle, if_neg (by omega)]
      · rw [if_neg hle, if_pos (by omega)]

theorem mem_insertDesc (f : α → Int) (x a : α) (l : List α) :
    a ∈ insertDesc f x l ↔ a = x ∨ a ∈ l := by
  induction l with
  | nil => simp [insertDesc]
  | cons y ys ih =>
    simp only [insertDesc]
    split
    · simp
    · simp only [List.mem_cons, ih]
      tauto

theorem mem_jsSortByDesc (f : α → Int) (a : α) (l : List α) :
    a ∈ jsSortByDesc f l ↔ a ∈ l := by
  induction l with
  | nil => simp [jsSortByDesc]
  | cons x xs ih => simp [jsSortByDesc, mem_insertDesc, ih]

theorem firstMaxBy_eq_none_iff (f : α → Int) (l : List α) :
    firstMaxBy f l = none ↔ l = [] := by
  cases l with
  | nil => simp [firstMaxBy]
  | cons x xs => simp [firstMaxBy]

theorem firstMaxBy_mem (f : α → Int) :
    ∀ (l : List α) (m : α), firstMaxBy f l = some m → m ∈ l := by
  intro l
  induction l with
  | nil => intro m h; simp [firstMaxBy] at h
  | cons x xs ih =>
    intro m h
    simp only [firstMaxBy] at h
    have h' := Option.some.inj h
    cases hs : firstMaxBy f xs with
    | none =>
      rw [hs] at h'
      simp only [Option.elim_none] at h'
      subst h'
      exact List.mem_cons_self x xs
    | some m' =>
      rw [hs] at h'
      simp only [Option.elim_some] at h'
      by_cases hlt : f x < f m'
      · rw [if_pos hlt] at h'
        subst h'
        exact List.mem_cons_of_mem _ (ih _ hs)
      · rw [if_neg hlt] at h'
        subst h'
        exact List.mem_cons_self x xs

theorem firstMaxBy_max (f : α → Int) :
    ∀ (l : List α) (m : α), firstMaxBy f l = some m → ∀ x ∈ l, f x ≤ f m := by
  intro l
  induction l with
  | nil => intro m h; simp [firstMaxBy] at h
  | cons x xs ih =>
    intro m h a ha
    simp only [firstMaxBy] at h
    have h' := Option.some.inj h
    cases hs : firstMaxBy f xs with
    | none =>
      rw [hs] at h'
      simp only [Option.elim_none] at h'
      subst h'
      have hnil : xs = [] := (firstMaxBy_eq_none_iff f xs).mp hs
      subst hnil
      rcases List.mem_cons.mp ha with rfl | h2
      · exact le_refl _
      · simp at h2
    | some m' =>
      rw [hs] at h'
      simp only [Option.elim_some] at h'
      rcases List.mem_cons.mp ha with rfl | ha'
      · by_cases hlt : f a < f m'
        · rw [if_pos hlt] at h'
          subst h'
          omega
        · rw [if_neg hlt] at h'
          subst h'
          exact le_refl _
      · have hx := ih _ hs a ha'
        by_cases hlt : f x < f m'
        · rw [if_pos hlt] at h'
          subst h'
          exact hx
        · rw [if_neg hlt] at h'
          subst h'
          omega

theorem headD_jsSortByDesc (f : α → Int) (l : List α) (m d : α)
    (h : firstMaxBy f l = some m) : (jsSortByDesc f l).headD d = m := by
  have := head?_jsSortByDesc f l
  rw [h] at this
  cases hl : jsSortByDesc f l with
  | nil => rw [hl] at this; simp at this
  | cons a t => rw [hl] at this; simp at this; simp [this]

/-! ### Lemmas about `splitBy`, `joinSp` and `jsToLower` -/

theorem splitBy_nil (p : Char → Bool) : splitBy p [] = [[]] := rfl

theorem splitBy_cons (p : Char → Bool) (c : Char) (cs : List Char) :
    splitBy p (c :: cs) =
      (if p c then [] :: splitBy p cs
       else
         match splitBy p cs with
         | [] => [[c]]
         | t :: ts => (c :: t) :: ts) := rfl

theorem splitBy_ne_nil (p : Char → Bool) (cs : List Char) : splitBy p cs ≠ [] := by
  induction cs with
  | nil => simp [splitBy_nil]
  | cons c cs ih =>
    rw [splitBy_cons]
    split
    · simp
    · cases h : splitBy p cs with
      | nil => simp
      | cons t ts => simp

theorem splitBy_cons_sep (p : Char → Bool) (c : Char) (cs : List Char)
    (h : p c = true) : splitBy p (c :: cs) = [] :: splitBy p cs := by
  rw [splitBy_cons, if_pos h]

theorem splitBy_cons_nonsep (p : Char → Bool) (c : Char) (cs : List Char)
    (h : p c = false) :
    splitBy p (c :: cs) =
      (c :: (splitBy p cs).headD []) :: (splitBy p cs).tail := by
  rw [splitBy_cons, if_neg (by simp [h])]
  cases hs : splitBy p cs with
  | nil => exact absurd hs (splitBy_ne_nil p cs)
  | cons t ts => simp

theorem mem_splitBy_not_sep (p : Char → Bool) (cs : List Char) :
    ∀ t ∈ splitBy p cs, ∀ c ∈ t, p c = false := by
  induction cs with
  | nil =>
    intro t ht c hc
    rw [splitBy_nil] at ht
    simp at ht
    subst ht
    simp at hc
  | cons a cs ih =>
    intro t ht c hc
    by_cases ha : p a
    · rw [splitBy_cons_sep p a cs ha] at ht
      rcases List.mem_cons.mp ht with rfl | ht'
      · simp at hc
      · exact ih t ht' c hc
    · rw [splitBy_cons_nonsep p a cs (by simpa using ha)] at ht
      cases hs : splitBy p cs with
      | nil => exact absurd hs (splitBy_ne_nil p cs)
      | cons t0 ts =>
        rw [hs] at ht
        simp only [List.headD_cons, List.tail_cons] at ht
        rcases List.mem_cons.mp ht with rfl | ht'
        · rcases List.mem_cons.mp hc with rfl | hc'
          · simpa using ha
          · exact ih t0 (by rw [hs]; exact List.mem_cons_self _ _) c hc'
        · exact ih t (by rw [hs]; exact List.mem_cons_of_mem _ ht') c hc

theorem mem_splitBy_subset (p : Char → Bool) (cs : List Char) :
    ∀ t ∈ splitBy p cs, ∀ c ∈ t, c ∈ cs := by
  induction cs with
  | nil =>
    intro t ht c hc
    rw [splitBy_nil] at ht
    simp at ht
    subst ht
    simp at hc
  | cons a cs ih =>
    intro t ht c hc
    by_cases ha : p a
    · rw [splitBy_cons_sep p a cs ha] at ht
      rcases List.mem_cons.mp ht with rfl | ht'
      · simp at hc
      · exact List.mem_cons_of_mem _ (ih t ht' c hc)
    · rw [splitBy_cons_nonsep p a cs (by simpa using ha)] at ht
      cases hs : splitBy p cs with
      | nil => exact absurd hs (splitBy_ne_nil p cs)
      | cons t0 ts =>
        rw [hs] at ht
        simp only [List.headD_cons, List.tail_cons] at ht
        rcases List.mem_cons.mp ht with rfl | ht'
        · rcases List.mem_cons.mp hc with rfl | hc'
          · exact List.mem_cons_self _ _
          · exact List.mem_cons_of_mem _
              (ih t0 (by rw [hs]; exact List.mem_cons_self _ _) c hc')
        · exact List.mem_cons_of_mem _
            (ih t (by rw [hs]; exact List.mem_cons_of_mem _ ht') c hc)

theorem splitBy_append_nonsep (p : Char → Bool) (t rest : List Char)
    (h : ∀ c ∈ t, p c = false) :
    splitBy p (t ++ rest) =
      (t ++ (splitBy p rest).headD []) :: (splitBy p rest).tail := by
  induction t with
  | nil =>
    simp only [List.nil_append]
    cases hs : splitBy p rest with
    | nil => exact absurd hs (splitBy_ne_nil p rest)
    | cons t0 ts => simp
  | cons c t' ih =>
    have hc : p c = false := h c (List.mem_cons_self _ _)
    have ih' := ih (fun a ha => h a (List.mem_cons_of_mem _ ha))
    rw [List.cons_append, splitBy_cons_nonsep p c (t' ++ rest) hc, ih']
    simp

theorem splitBy_all_nonsep (p : Char → Bool) (t : List Char)
    (h : ∀ c ∈ t, p c = false) : splitBy p t = [t] := by
  have := splitBy_append_nonsep p t [] h
  simpa [splitBy_nil] using this

theorem spaceTokens_joinSp (ts : List (List Char))
    (h : ∀ t ∈ ts, t ≠ [] ∧ ∀ c ∈ t, jsSpace c = false) :
    (splitBy jsSpace (joinSp ts)).filter (· ≠ []) = ts := by
  induction ts with
  | nil => simp [joinSp, splitBy_nil]
  | cons t ts ih =>
    cases ts with
    | nil =>
      have ht := h t (List.mem_cons_self _ _)
      rw [joinSp, splitBy_all_nonsep jsSpace t ht.2]
      simp [ht.1]
    | cons u us =>
      have ht := h t (List.mem_cons_self _ _)
      have hrest : ∀ v ∈ u :: us, v ≠ [] ∧ ∀ c ∈ v, jsSpace c = false :=
        fun v hv => h v (List.mem_cons_of_mem _ hv)
      have hjoin : joinSp (t :: u :: us) = t ++ ' ' :: joinSp (u :: us) := rfl
      rw [hjoin, splitBy_append_nonsep jsSpace t (' ' :: joinSp (u :: us)) ht.2,
        splitBy_cons_sep jsSpace ' ' (joinSp (u :: us)) (by decide)]
      simp only [List.headD_cons, List.tail_cons, List.append_nil]
      rw [List.filter_cons_of_pos (by simpa using ht.1)]
      rw [ih hrest]

theorem mem_joinSp (ts : List (List Char)) (c : Char) (hc : c ∈ joinSp ts) :
    c = ' ' ∨ ∃ t ∈ ts, c ∈ t := by
  induction ts with
  | nil => simp [joinSp] at hc
  | cons t ts ih =>
    cases ts with
    | nil =>
      right
      exact ⟨t, List.mem_cons_self _ _, by simpa [joinSp] using hc⟩
    | cons u us =>
      have hjoin : joinSp (t :: u :: us) = t ++ ' ' :: joinSp (u :: us) := rfl
      rw [hjoin] at hc
      rcases List.mem_append.mp hc with h1 | h2
      · exact Or.inr ⟨t, List.mem_cons_self _ _, h1⟩
      · rcases List.mem_cons.mp h2 with rfl | h3
        · exact Or.inl rfl
        · rcases ih h3 with h4 | ⟨v, hv, hcv⟩
          · exact Or.inl h4
          · exact Or.inr ⟨v, List.mem_cons_of_mem _ hv, hcv⟩

theorem charOfNat_toNat_small :
    ∀ n, n < 123 → 97 ≤ n → (Char.ofNat n).toNat = n := by decide

theorem jsToLower_idem (c : Char) : jsToLower (jsToLower c) = jsToLower c := by
  unfold jsToLower
  by_cases h : 65 ≤ c.toNat ∧ c.toNat ≤ 90
  · rw [if_pos h]
    have hv : (Char.ofNat (c.toNat + 32)).toNat = c.toNat + 32 :=
      charOfNat_toNat_small (c.toNat + 32) (by omega) (by omega)
    rw [if_neg (by omega)]
  · rw [if_neg h, if_neg h]

/-! ### Claim C6: the Name Normalizer's output -/

/-- C6, counterexample: the claim asserts that `cleanName`'s output contains
no punctuation other than hyphens and spaces, but the stripped punctuation
is an explicit list that does not include `;` (nor `_`, `<`, `~`, …), so
`cleanName "a;b" = "a;b"` retains the semicolon, which is neither a letter,
digit, hyphen nor space. -/
theorem cleanName_punct_counterexample :
    cleanName "a;b" = "a;b" ∧ ';' ∈ (cleanName "a;b").data ∧
      claimedCleanChar ';' = false := by
  decide

/-- C6, amended: for every raw company name, every whitespace-separated
token of `cleanName raw` avoids the stop-list and contains neither
whitespace nor any character of the code's explicit strip list (other
punctuation such as `;` may survive), tokens are non-empty (so spaces are
single separators), and every character is case-folded
(`jsToLower`-fixed). -/
theorem cleanName_output_clean (raw : String) :
    (∀ t ∈ spaceTokens (cleanName raw),
        String.mk t ∉ cleanDrop ∧ t ≠ [] ∧
          ∀ c ∈ t, jsSpace c = false ∧ stripPunct c = false) ∧
      (∀ c ∈ (cleanName raw).data, jsToLower c = c) := by
  set kept := (((splitBy jsSpace (raw.data.map cleanChar)).filter (· ≠ [])).filter
    (fun t => decide (String.mk t ∉ cleanDrop))) with hkeptdef
  have hdata : (cleanName raw).data = joinSp kept := rfl
  have hkept_tok : ∀ t ∈ kept, t ∈ splitBy jsSpace (raw.data.map cleanChar) := by
    intro t ht
    exact List.mem_of_mem_filter (List.mem_of_mem_filter ht)
  have hkept_ne : ∀ t ∈ kept, t ≠ [] := by
    intro t ht
    have h1 := List.mem_of_mem_filter ht
    have := (List.mem_filter.mp h1).2
    simpa using this
  have hnosp : ∀ t ∈ kept, ∀ c ∈ t, jsSpace c = false := fun t ht =>
    mem_splitBy_not_sep jsSpace _ t (hkept_tok t ht)
  have hdropOK : ∀ t ∈ kept, String.mk t ∉ cleanDrop := by
    intro t ht
    have := (List.mem_filter.mp ht).2
    simpa using this
  have hchar : ∀ t ∈ kept, ∀ c ∈ t, c ∈ raw.data.map cleanChar := fun t ht =>
    mem_splitBy_subset jsSpace _ t (hkept_tok t ht)
  have hTok : spaceTokens (cleanName raw) = kept := by
    unfold spaceTokens
    rw [hdata]
    exact spaceTokens_joinSp kept (fun t ht => ⟨hkept_ne t ht, hnosp t ht⟩)
  constructor
  · intro t ht
    rw [hTok] at ht
    refine ⟨hdropOK t ht, hkept_ne t ht, fun c hc => ⟨hnosp t ht c hc, ?_⟩⟩
    have hcm := hchar t ht c hc
    obtain ⟨o, -, hoc⟩ := List.mem_map.mp hcm
    unfold cleanChar at hoc
    by_cases hp : stripPunct (jsToLower o)
    · rw [if_pos hp] at hoc
      have hns := hnosp t ht c hc
      rw [← hoc] at hns
      exact absurd hns (by decide)
    · rw [if_neg hp] at hoc
      rw [← hoc]
      simpa using hp
  · intro c hc
    rw [hdata] at hc
    rcases mem_joinSp kept c hc with rfl | ⟨t, ht, hct⟩
    · decide
    · have hcm := hchar t ht c hct
      obtain ⟨o, -, hoc⟩ := List.mem_map.mp hcm
      unfold cleanChar at hoc
      by_cases hp : stripPunct (jsToLower o)
      · rw [if_pos hp] at hoc
        rw [← hoc]
        decide
      · rw [if_neg hp] at hoc
        rw [← hoc]
        exact jsToLower_idem o

/-- C6, witness for the amended theorem at the concrete input
`"Acme! Ltd"`, whose single output token is `acme`. -/
theorem cleanName_output_clean_witness :
    String.mk ['a', 'c', 'm', 'e'] ∉ cleanDrop ∧ jsToLower 'a' = 'a' := by
  refine ⟨((cleanName_output_clean "Acme! Ltd").1 ['a', 'c', 'm', 'e'] ?_).1, ?_⟩
  · decide
  · exact (cleanName_output_clean "Acme! Ltd").2 'a' (by decide)

/-! ### Claim C10: idempotence of `normalizePhone` -/

theorem take4_decomp (s : List Char) (h : s.take 4 = ['0', '0', '4', '4']) :
    s = '0' :: '0' :: '4' :: '4' :: s.drop 4 := by
  rcases s with _ | ⟨a, _ | ⟨b, _ | ⟨c, _ | ⟨d, t⟩⟩⟩⟩ <;>
    (simp [List.take] at h ⊢; try simp_all)

theorem take2_decomp (s : List Char) (h : s.take 2 = ['4', '4']) :
    s = '4' :: '4' :: s.drop 2 := by
  rcases s with _ | ⟨a, _ | ⟨b, t⟩⟩ <;> (simp [List.take] at h ⊢; try simp_all)

theorem ukPrefixRewrite_plus44 (u : List Char) :
    ukPrefixRewrite ('+' :: '4' :: '4' :: u) = '+' :: '4' :: '4' :: u := by
  unfold ukPrefixRewrite
  rw [if_neg (by intro hcon; simp [List.take] at hcon)]
  rw [if_neg (by intro hcon; simp [List.take] at hcon)]

theorem ukPrefixRewrite_fix_or_plus (s : List Char) :
    ukPrefixRewrite s = s ∨ ∃ u, ukPrefixRewrite s = '+' :: '4' :: '4' :: u := by
  unfold ukPrefixRewrite
  by_cases h1 : s.take 4 = ['0', '0', '4', '4']
  · right
    rw [if_pos h1]
    have hd : s.drop 2 = '4' :: '4' :: s.drop 4 := by
      conv_lhs => rw [take4_decomp s h1]
      simp
    rw [hd]
    rw [if_neg (by intro hcon; simp [List.take] at hcon)]
    exact ⟨s.drop 4, rfl⟩
  · rw [if_neg h1]
    by_cases h2 : s.take 2 = ['4', '4'] ∧ s.take 1 ≠ ['+']
    · right
      rw [if_pos h2]
      refine ⟨s.drop 2, ?_⟩
      conv_lhs => rw [take2_decomp s h2.1]
    · left
      rw [if_neg h2]

theorem ukPrefixRewrite_idem (s : List Char) :
    ukPrefixRewrite (ukPrefixRewrite s) = ukPrefixRewrite s := by
  rcases ukPrefixRewrite_fix_or_plus s with h | ⟨u, h⟩
  · rw [h, h]
  · rw [h]
    exact ukPrefixRewrite_plus44 u

theorem filter_keepPhone_ukRewrite (s : List Char)
    (h : s.filter keepPhoneChar = s) :
    (ukPrefixRewrite s).filter keepPhoneChar = ukPrefixRewrite s := by
  have hmem : ∀ c ∈ s, keepPhoneChar c = true := List.filter_eq_self.mp h
  have hdropn : ∀ n, (s.drop n).filter keepPhoneChar = s.drop n := fun n =>
    List.filter_eq_self.mpr (fun c hc => hmem c (List.mem_of_mem_drop hc))
  unfold ukPrefixRewrite
  by_cases h1 : s.take 4 = ['0', '0', '4', '4']
  · rw [if_pos h1]
    have hd : s.drop 2 = '4' :: '4' :: s.drop 4 := by
      conv_lhs => rw [take4_decomp s h1]
      simp
    rw [hd]
    rw [if_neg (by intro hcon; simp [List.take] at hcon)]
    rw [List.filter_cons_of_pos (by decide), List.filter_cons_of_pos (by decide),
      List.filter_cons_of_pos (by decide), hdropn 4]
  · rw [if_neg h1]
    by_cases h2 : s.take 2 = ['4', '4'] ∧ s.take 1 ≠ ['+']
    · rw [if_pos h2]
      rw [List.filter_cons_of_pos (by decide), h]
    · rw [if_neg h2]
      exact h

/-- C10: `normalizePhone` is idempotent — applying the digit/plus filter and
the UK prefix rewrites a second time never changes the result. -/
theorem normalizePhone_idempotent (p : String) :
    normalizePhone (normalizePhone p) = normalizePhone p := by
  by_cases hp : p = ""
  · subst hp
    simp [normalizePhone]
  · have h1 : normalizePhone p = String.mk (ukPrefixRewrite (p.data.filter keepPhoneChar)) := by
      rw [normalizePhone, if_neg hp]
    rw [h1]
    by_cases hnil : String.mk (ukPrefixRewrite (p.data.filter keepPhoneChar)) = ""
    · rw [hnil]
      simp [normalizePhone]
    · rw [normalizePhone, if_neg hnil]
      have hdata : (String.mk (ukPrefixRewrite (p.data.filter keepPhoneChar))).data =
          ukPrefixRewrite (p.data.filter keepPhoneChar) := rfl
      rw [hdata]
      have hfix : (ukPrefixRewrite (p.data.filter keepPhoneChar)).filter keepPhoneChar =
          ukPrefixRewrite (p.data.filter keepPhoneChar) :=
        filter_keepPhone_ukRewrite _
          (List.filter_eq_self.mpr (fun c hc => (List.mem_filter.mp hc).2))
      rw [hfix, ukPrefixRewrite_idem]

/-! ### Claim C7: phone normalization and plausibility rejection -/

theorem isLikelyPhone_digitCount (n : String) (h : isLikelyPhone n = true) :
    10 ≤ digitCount n ∧ digitCount n ≤ 15 := by
  obtain ⟨l⟩ := n
  simp only [isLikelyPhone] at h
  by_cases hh : (String.mk l).data.headD ' ' = '+'
  · rw [if_pos hh] at h
    cases l with
    | nil => simp at hh
    | cons c t =>
      have hc : c = '+' := by simpa using hh
      subst hc
      simp only [List.tail_cons] at h
      simp only [Bool.and_eq_true, decide_eq_true_eq] at h
      obtain ⟨⟨hall, h10⟩, h15⟩ := h
      have hfil : List.filter Char.isDigit ('+' :: t) = t := by
        rw [List.filter_cons_of_neg (by decide)]
        exact List.filter_eq_self.mpr (fun a ha => List.all_eq_true.mp hall a ha)
      unfold digitCount
      rw [show (String.mk ('+' :: t)).data = '+' :: t from rfl, hfil]
      exact ⟨h10, h15⟩
  · rw [if_neg hh] at h
    simp only [Bool.and_eq_true, decide_eq_true_eq] at h
    obtain ⟨⟨hall, h10⟩, h15⟩ := h
    have hfil : List.filter Char.isDigit l = l :=
      List.filter_eq_self.mpr (fun a ha => List.all_eq_true.mp hall a ha)
    unfold digitCount
    rw [show (String.mk l).data = l from rfl, hfil]
    exact ⟨h10, h15⟩

/-- C7: a leading `0044` is rewritten to `+44`
(`normalizePhone "00441234567890" = "+441234567890"`), and whenever every
candidate's normalized form has fewer than 10 or more than 15 digits, the
plausibility filter rejects them all and `pickBestPhone` returns the empty
result. -/
theorem phone_normalize_and_reject :
    normalizePhone "00441234567890" = "+441234567890" ∧
      ∀ phones : List String,
        (∀ p ∈ phones,
          digitCount (normalizePhone p) < 10 ∨ 15 < digitCount (normalizePhone p)) →
        pickBestPhone phones = "" := by
  constructor
  · decide
  · intro phones h
    have harr : (phones.map normalizePhone).filter isLikelyPhone = [] := by
      rw [List.filter_eq_nil_iff]
      intro a ha
      obtain ⟨p, hp, rfl⟩ := List.mem_map.mp ha
      intro hlik
      obtain ⟨h10, h15⟩ := isLikelyPhone_digitCount _ hlik
      rcases h p hp with hlt | hgt <;> omega
    simp [pickBestPhone, harr]

/-- C7, witness: the implausible single candidate `"12345"` (5 digits) is
rejected. -/
theorem phone_normalize_and_reject_witness :
    normalizePhone "00441234567890" = "+441234567890" ∧ pickBestPhone ["12345"] = "" :=
  ⟨phone_normalize_and_reject.1, phone_normalize_and_reject.2 ["12345"] (by decide)⟩

/-! ### Picking the top element of a stable descending sort -/

theorem sortedPick_mem {β : Type _} (g : β → Int) (l : List β) (hl : l ≠ [])
    (d : β × Int) :
    ((jsSortByDesc Prod.snd (l.map (fun x => (x, g x)))).headD d).1 ∈ l := by
  have hml : l.map (fun x => (x, g x)) ≠ [] := by simpa using hl
  obtain ⟨m, hm⟩ : ∃ m, firstMaxBy Prod.snd (l.map (fun x => (x, g x))) = some m := by
    cases h : firstMaxBy Prod.snd (l.map (fun x => (x, g x))) with
    | none => exact absurd ((firstMaxBy_eq_none_iff _ _).mp h) hml
    | some m => exact ⟨m, rfl⟩
  rw [headD_jsSortByDesc _ _ _ _ hm]
  have hmem := firstMaxBy_mem _ _ _ hm
  obtain ⟨x, hx, hxm⟩ := List.mem_map.mp hmem
  rw [← hxm]
  exact hx

/-- Core facts about `pickBestEmail` when the trimmed non-blank candidate
pool is non-empty: the winner is one of the trimmed non-blank candidates,
and whenever some candidate passes the preferred-domain partition test the
winner does too (the winner is drawn from the preferred partition). -/
theorem pickBestEmail_spec (emails : List String) (pd : String)
    (harrne : (emails.map jsTrim).filter (fun e => decide (e ≠ "")) ≠ []) :
    pickBestEmail emails pd ∈ (emails.map jsTrim).filter (fun e => decide (e ≠ "")) ∧
      ((∃ e ∈ (emails.map jsTrim).filter (fun e => decide (e ≠ "")),
          preferTest pd e = true) →
        preferTest pd (pickBestEmail emails pd) = true) := by
  set arr := (emails.map jsTrim).filter (fun e => decide (e ≠ "")) with harr
  have he : arr.isEmpty = false := by
    cases h : arr with
    | nil => exact absurd h harrne
    | cons a as => rfl
  have hpart : arr.partition (preferTest pd) =
      (arr.filter (preferTest pd), arr.filter (not ∘ preferTest pd)) :=
    List.partition_eq_filter_filter _ _
  have hpick : pickBestEmail emails pd =
      ((jsSortByDesc Prod.snd
        ((if (arr.filter (preferTest pd)).isEmpty
          then arr.filter (not ∘ preferTest pd)
          else arr.filter (preferTest pd)).map (fun e => (e, emailScore e)))).headD ("", 0)).1 := by
    simp only [pickBestEmail, ← harr]
    rw [if_neg (by simp [he]), hpart]
  by_cases hpe : (arr.filter (preferTest pd)).isEmpty
  · -- the preferred partition is empty: the pool is the rest, which is all of `arr`
    have hnone : ∀ a ∈ arr, preferTest pd a = false := by
      intro a ha
      have hnil : arr.filter (preferTest pd) = [] := by
        cases h : arr.filter (preferTest pd) with
        | nil => rfl
        | cons x xs => rw [h] at hpe; simp [List.isEmpty] at hpe
      have := List.filter_eq_nil_iff.mp hnil a ha
      simpa using this
    have hposq : arr.filter (not ∘ preferTest pd) = arr :=
      List.filter_eq_self.mpr (fun a ha => by
        simp only [Function.comp_apply, hnone a ha, Bool.not_false])
    have hpick2 : pickBestEmail emails pd =
        ((jsSortByDesc Prod.snd (arr.map (fun e => (e, emailScore e)))).headD ("", 0)).1 := by
      rw [hpick, if_pos hpe, hposq]
    have hmem : pickBestEmail emails pd ∈ arr := by
      rw [hpick2]
      exact sortedPick_mem emailScore arr harrne ("", 0)
    refine ⟨hmem, ?_⟩
    rintro ⟨e, he_arr, hpref⟩
    rw [hnone e he_arr] at hpref
    exact absurd hpref (by simp)
  · -- the preferred partition is non-empty: the pool is the preferred partition
    have hprene : arr.filter (preferTest pd) ≠ [] := by
      cases h : arr.filter (preferTest pd) with
      | nil => rw [h] at hpe; simp [List.isEmpty] at hpe
      | cons x xs => simp
    have hpick2 : pickBestEmail emails pd =
        ((jsSortByDesc Prod.snd
          ((arr.filter (preferTest pd)).map (fun e => (e, emailScore e)))).headD ("", 0)).1 := by
      rw [hpick, if_neg hpe]
    have hmem : pickBestEmail emails pd ∈ arr.filter (preferTest pd) := by
      rw [hpick2]
      exact sortedPick_mem emailScore _ hprene ("", 0)
    exact ⟨List.mem_of_mem_filter hmem, fun _ => (List.mem_filter.mp hmem).2⟩

/-! ### Claim C1: plausibility of accepted contact values -/

/-- C1, counterexample: `pickBestEmail` applies no plausibility regex — a
scraped `mailto:`/`data-email` signal that is not e-mail-shaped at all is
still selected and written.  `"not-an-email"` contains no match of
`EMAIL_RE` yet wins the ranking. -/
theorem pickBestEmail_no_regex_counterexample :
    pickBestEmail ["not-an-email"] "acme.com" = "not-an-email" ∧
      emailReHasMatch "not-an-email" = false := by
  decide

/-- C1 (amended): a phone value is accepted only if it is the normalized
form of a scraped signal and passed the 10-15-digit plausibility filter;
an e-mail value is accepted only if it is the trim of a scraped signal and
non-blank — no e-mail plausibility regex is applied at the ranking stage
(the `EMAIL_RE` regex only gates the signals harvested from page text, not
`mailto:`/`data-*` attributes). -/
theorem pickBest_plausibility :
    (∀ phones : List String, pickBestPhone phones ≠ "" →
        isLikelyPhone (pickBestPhone phones) = true ∧
          ∃ p ∈ phones, pickBestPhone phones = normalizePhone p) ∧
      (∀ (emails : List String) (pd : String), pickBestEmail emails pd ≠ "" →
        ∃ e ∈ emails, pickBestEmail emails pd = jsTrim e ∧ jsTrim e ≠ "") := by
  constructor
  · intro phones hne
    by_cases he : ((phones.map normalizePhone).filter isLikelyPhone).isEmpty
    · exfalso
      apply hne
      simp only [pickBestPhone]
      rw [if_pos he]
    · have hlne : (phones.map normalizePhone).filter isLikelyPhone ≠ [] := by
        cases h : (phones.map normalizePhone).filter isLikelyPhone with
        | nil => rw [h] at he; simp [List.isEmpty] at he
        | cons a as => simp
      have heq : pickBestPhone phones =
          ((jsSortByDesc Prod.snd (((phones.map normalizePhone).filter isLikelyPhone).map
            (fun n => (n, phoneScore n)))).headD ("", 0)).1 := by
        simp only [pickBestPhone]
        rw [if_neg (by simp [he])]
      have hr : pickBestPhone phones ∈ (phones.map normalizePhone).filter isLikelyPhone := by
        rw [heq]
        exact sortedPick_mem phoneScore _ hlne ("", 0)
      have h1 := List.mem_filter.mp hr
      obtain ⟨p, hp, hpe⟩ := List.mem_map.mp h1.1
      exact ⟨h1.2, p, hp, hpe.symm⟩
  · intro emails pd hne
    have harrne : (emails.map jsTrim).filter (fun e => decide (e ≠ "")) ≠ [] := by
      intro hcon
      apply hne
      simp only [pickBestEmail]
      rw [if_pos (by rw [hcon]; rfl)]
    have hmem := (pickBestEmail_spec emails pd harrne).1
    have h1 := List.mem_filter.mp hmem
    obtain ⟨e, heml, hee⟩ := List.mem_map.mp h1.1
    exact ⟨e, heml, hee.symm, by rw [hee]; simpa using h1.2⟩

/-- C1, witness for the amended theorem: a plausible UK phone and a plain
e-mail are accepted and satisfy the stated forms. -/
theorem pickBest_plausibility_witness :
    (isLikelyPhone (pickBestPhone ["+44 20 7946 0958"]) = true ∧
        ∃ p ∈ ["+44 20 7946 0958"], pickBestPhone ["+44 20 7946 0958"] = normalizePhone p) ∧
      ∃ e ∈ ["info@acme.com"], pickBestEmail ["info@acme.com"] "" = jsTrim e ∧ jsTrim e ≠ "" :=
  ⟨pickBest_plausibility.1 ["+44 20 7946 0958"] (by decide),
   pickBest_plausibility.2 ["info@acme.com"] "" (by decide)⟩

/-! ### Claim C4: preferred-domain partition in e-mail ranking -/

/-- C4, counterexample: the partition test is the mutual-suffix check
`preferredDomain.endsWith(d) || d.endsWith(preferredDomain)`, not "the
address is on the preferred domain": with preferred domain `acme.com` the
off-domain address `info@cme.com` (whose domain `cme.com` is a suffix of
`acme.com`) lands in the preferred partition and, being first among
equal-scoring candidates, beats the genuinely on-domain
`info@acme.com`. -/
theorem pickBestEmail_offdomain_counterexample :
    pickBestEmail ["info@cme.com", "info@acme.com"] "acme.com" = "info@cme.com" ∧
      emailDomain "info@cme.com" ≠ "acme.com" ∧
      emailDomain "info@acme.com" = "acme.com" := by
  decide

/-- C4 (amended): with "on the preferred domain" read as the code's
mutual-suffix partition test, `pickBestEmail` never selects an address
outside the preferred partition when that partition is non-empty; and on
the concrete example of the claim the winner is `info@acme.com`. -/
theorem pickBestEmail_prefers_on_domain :
    (∀ (emails : List String) (pd : String),
        (∃ e ∈ emails, jsTrim e ≠ "" ∧ preferTest pd (jsTrim e) = true) →
        preferTest pd (pickBestEmail emails pd) = true) ∧
      pickBestEmail ["sales+promo@acme.com", "info@acme.com", "random@gmail.com"]
        "acme.com" = "info@acme.com" := by
  constructor
  · rintro emails pd ⟨e, he, hne, hp⟩
    have harrmem : jsTrim e ∈ (emails.map jsTrim).filter (fun x => decide (x ≠ "")) :=
      List.mem_filter.mpr ⟨List.mem_map_of_mem _ he, by simpa using hne⟩
    have harrne : (emails.map jsTrim).filter (fun x => decide (x ≠ "")) ≠ [] :=
      fun hcon => by rw [hcon] at harrmem; simp at harrmem
    exact (pickBestEmail_spec emails pd harrne).2 ⟨jsTrim e, harrmem, hp⟩
  · decide

/-- C4, witness for the amended theorem at a single on-domain candidate. -/
theorem pickBestEmail_prefers_on_domain_witness :
    preferTest "acme.com" (pickBestEmail ["info@acme.com"] "acme.com") = true :=
  pickBestEmail_prefers_on_domain.1 ["info@acme.com"] "acme.com"
    ⟨"info@acme.com", by decide, by decide, by decide⟩

/-! ### Claim C2: batching and early stop in `bestDomainFor` -/

theorem bdLoop_spec (dns http : String → Bool) :
    ∀ (bs : List (List String)) (checked : List VerRes),
      bdLoop dns http checked bs =
        (checked ++ (takeThroughStrong (bs.map (·.map (verify dns http)))).flatten,
          bestAliveOf
            (checked ++ (takeThroughStrong (bs.map (·.map (verify dns http)))).flatten)) := by
  intro bs
  induction bs with
  | nil =>
    intro checked
    have h2 : (jsSortByDesc domScore (checked.filter (·.ok))).head? = bestAliveOf checked := by
      rw [head?_jsSortByDesc]
      rfl
    simp [bdLoop, takeThroughStrong, h2]
  | cons b bs ih =>
    intro checked
    simp only [bdLoop, List.map_cons]
    split
    · rename_i strong hf
      have hmem := List.mem_of_find?_eq_some hf
      have hsh := List.find?_some hf
      have hany : (b.map (verify dns http)).any strongHit = true :=
        List.any_eq_true.mpr ⟨strong, hmem, hsh⟩
      rw [takeThroughStrong, if_pos hany]
      simp only [List.flatten_cons, List.flatten_nil, List.append_nil]
      have hok : strong.ok = true := by
        simp only [strongHit, Bool.and_eq_true] at hsh
        exact hsh.1
      have hmemf : strong ∈ (checked ++ b.map (verify dns http)).filter (·.ok) :=
        List.mem_filter.mpr ⟨List.mem_append_right _ hmem, by simpa using hok⟩
      have hne : (checked ++ b.map (verify dns http)).filter (·.ok) ≠ [] := by
        intro hcon
        rw [hcon] at hmemf
        simp at hmemf
      obtain ⟨m, hm⟩ : ∃ m,
          firstMaxBy domScore ((checked ++ b.map (verify dns http)).filter (·.ok)) = some m := by
        cases h : firstMaxBy domScore ((checked ++ b.map (verify dns http)).filter (·.ok)) with
        | none => exact absurd ((firstMaxBy_eq_none_iff _ _).mp h) hne
        | some m => exact ⟨m, rfl⟩
      rw [headD_jsSortByDesc _ _ _ _ hm]
      have hba : bestAliveOf (checked ++ b.map (verify dns http)) = some m := by
        unfold bestAliveOf
        exact hm
      rw [hba]
    · rename_i hf
      have hany : ¬ ((b.map (verify dns http)).any strongHit = true) := by
        intro hcon
        obtain ⟨x, hx, hpx⟩ := List.any_eq_true.mp hcon
        exact (List.find?_eq_none.mp hf x hx) hpx
      rw [takeThroughStrong, if_neg hany]
      simp only [List.flatten_cons]
      rw [ih (checked ++ b.map (verify dns http))]
      simp [List.append_assoc]

/-- C2: `bestDomainFor` equals its specification: cap the sorted candidates
to the top 40, verify in batches of 5, stop after the first batch holding a
verified-alive `.co.uk`/`.com` candidate, and return the best-scored alive
candidate among everything checked across all processed batches (or `none`
when nothing verified alive); moreover `bestAliveOf` really picks an alive
candidate of maximal score among all checked, and is `none` exactly when no
checked candidate is alive. -/
theorem bestDomainFor_spec_eq :
    (∀ (dns http : String → Bool) (name country : String),
        bestDomainFor dns http name country = bestDomainForSpec dns http name country) ∧
      (∀ (checked : List VerRes) (r : VerRes), bestAliveOf checked = some r →
        r ∈ checked ∧ r.ok = true ∧
          ∀ x ∈ checked, x.ok = true → score x.domain ≤ score r.domain) ∧
      (∀ checked : List VerRes, bestAliveOf checked = none ↔ ∀ x ∈ checked, x.ok = false) := by
  refine ⟨?_, ?_, ?_⟩
  · intro dns http name country
    simp only [bestDomainFor, bestDomainForSpec]
    by_cases hc : cleanName name = ""
    · rw [if_pos hc, if_pos hc]
    · rw [if_neg hc, if_neg hc]
      have h40 : (sortedCandidates (cleanName name) country).take
          (min 40 (sortedCandidates (cleanName name) country).length) =
          (sortedCandidates (cleanName name) country).take 40 := by
        simp [List.take_eq_take]
      rw [h40, bdLoop_spec dns http]
      simp
  · intro checked r h
    unfold bestAliveOf at h
    have hmem := firstMaxBy_mem _ _ _ h
    refine ⟨List.mem_of_mem_filter hmem, ?_, ?_⟩
    · have := (List.mem_filter.mp hmem).2
      simpa using this
    · intro x hx hok
      exact firstMaxBy_max _ _ _ h x (List.mem_filter.mpr ⟨hx, by simpa using hok⟩)
  · intro checked
    unfold bestAliveOf
    rw [firstMaxBy_eq_none_iff, List.filter_eq_nil_iff]
    constructor
    · intro h x hx
      have := h x hx
      simpa using this
    · intro h x hx
      simp [h x hx]

/-- C2, witness for the hypothesis-bearing conjuncts of the theorem, at the
one-element checked list `[⟨"acme.com", dns-alive⟩]`. -/
theorem bestDomainFor_spec_eq_witness :
    (⟨"acme.com", true, false, true⟩ : VerRes) ∈
        [(⟨"acme.com", true, false, true⟩ : VerRes)] ∧
      (⟨"acme.com", true, false, true⟩ : VerRes).ok = true :=
  ⟨(bestDomainFor_spec_eq.2.1 [⟨"acme.com", true, false, true⟩]
      ⟨"acme.com", true, false, true⟩ (by decide)).1,
   (bestDomainFor_spec_eq.2.1 [⟨"acme.com", true, false, true⟩]
      ⟨"acme.com", true, false, true⟩ (by decide)).2.1⟩

/-! ### Claim C5: status derivation -/

/-- C5: the derived status matches the claimed five-way case table exactly
(for every combination of resolved values and brand verdict), and the
brand verdict — hence a weak brand match — never influences the e-mail or
phone value placed in the patch (only the status). -/
theorem status_derivation_spec :
    (∀ (d e p : String) (b : Option Bool), statusFor d e p b = statusSpecC5 d e p b) ∧
      (∀ (dns http : String → Bool) (contacts : String → ContactsOut)
          (bt : String → String) (r : RecordIn),
        (processRecord dns http (fun u => { contacts u with brandText := bt u }) r).email =
            (processRecord dns http contacts r).email ∧
          (processRecord dns http (fun u => { contacts u with brandText := bt u }) r).phone =
            (processRecord dns http contacts r).phone) := by
  constructor
  · intro d e p b
    unfold statusFor statusSpecC5
    by_cases hd : d = "" <;> by_cases he : e = "" <;> by_cases hp : p = "" <;>
      rcases b with _ | (_ | _) <;> simp [hd, he, hp]
  · intro dns http contacts bt r
    exact ⟨rfl, rfl⟩

/-! ### Claim C8: SIC section lookup -/

/-- C8: code `"62020"` maps to section J, `"01100"` to section A, the
unmapped prefix `"00"` to no label; the table has 21 entries; and any code
whose two-character prefix does not parse as an integer is silently skipped
(empty label, no error). -/
theorem sic_lookup_spec :
    lookupIndustryFromSICCode "62020" = "J — Information & Communication" ∧
      lookupIndustryFromSICCode "01100" = "A — Agriculture, Forestry & Fishing" ∧
      lookupIndustryFromSICCode "00" = "" ∧
      SIC_SECTIONS.length = 21 ∧
      ∀ code : String, jsParseIntDec ((jsTrim code).data.take 2) = none →
        lookupIndustryFromSICCode code = "" := by
  refine ⟨by decide, by decide, by decide, by decide, ?_⟩
  intro code h
  unfold lookupIndustryFromSICCode
  by_cases hc : code = ""
  · rw [if_pos hc]
  · rw [if_neg hc, h]

/-- C8, witness: the non-numeric code `"xx"` is skipped. -/
theorem sic_lookup_spec_witness :
    lookupIndustryFromSICCode "xx" = "" ∧
      lookupIndustryFromSICCode "62020" = "J — Information & Communication" :=
  ⟨sic_lookup_spec.2.2.2.2 "xx" (by decide), sic_lookup_spec.1⟩

/-! ### Claim C9: `decodeCfEmail` inverts the obfuscation encoding -/

theorem hexDigitVal_toHexDigit : ∀ m, m < 16 → hexDigitVal (toHexDigit m) = some m := by
  decide

theorem jsParseHex2_pair (c1 c2 : Char) :
    jsParseHex2 [c1, c2] =
      match hexDigitVal c1 with
      | none => none
      | some v1 =>
        match hexDigitVal c2 with
        | none => some v1
        | some v2 => some (16 * v1 + v2) := rfl

theorem jsParseHex2_toHex2 (n : Nat) (h : n < 256) : jsParseHex2 (toHex2 n) = some n := by
  have h1 : n / 16 < 16 := by omega
  have h2 : n % 16 < 16 := Nat.mod_lt _ (by omega)
  unfold toHex2
  rw [jsParseHex2_pair, hexDigitVal_toHexDigit _ h1, hexDigitVal_toHexDigit _ h2]
  simp [Nat.div_add_mod]

theorem decodeLoop_encode (k : Nat) (hk : k < 256) :
    ∀ bs : List Nat, (∀ b ∈ bs, b < 256) →
      decodeLoop k (bs.flatMap (fun b => toHex2 (b ^^^ k))) = bs.map Char.ofNat := by
  intro bs
  induction bs with
  | nil => intro _; rfl
  | cons b bt ih =>
    intro h
    have hb : b < 256 := h b (List.mem_cons_self _ _)
    have hxor : b ^^^ k < 256 := Nat.xor_lt_two_pow (n := 8) hb hk
    have hflat : (b :: bt).flatMap (fun x => toHex2 (x ^^^ k)) =
        toHexDigit ((b ^^^ k) / 16) :: toHexDigit ((b ^^^ k) % 16) ::
          bt.flatMap (fun x => toHex2 (x ^^^ k)) := by
      simp [toHex2]
    rw [hflat]
    have hparse : jsParseHex2 [toHexDigit ((b ^^^ k) / 16), toHexDigit ((b ^^^ k) % 16)] =
        some (b ^^^ k) := by
      have := jsParseHex2_toHex2 (b ^^^ k) hxor
      simpa [toHex2] using this
    rw [decodeLoop, hparse]
    simp only [Option.getD_some]
    have hcancel : (b ^^^ k) ^^^ k = b := by
      rw [Nat.xor_assoc, Nat.xor_self, Nat.xor_zero]
    rw [hcancel, List.map_cons, ih (fun x hx => h x (List.mem_cons_of_mem _ hx))]

/-- C9: `decodeCfEmail` is a left inverse of the Cloudflare obfuscation
encoding: for every key byte and byte sequence, decoding the key's hex
digits followed by each byte XOR key in hex recovers exactly the original
character sequence. -/
theorem decodeCfEmail_cons (c1 c2 : Char) (rest : List Char) :
    decodeCfEmail (String.mk (c1 :: c2 :: rest)) =
      String.mk (decodeLoop ((jsParseHex2 [c1, c2]).getD 0) rest) := rfl

theorem decodeCfEmail_left_inverse (key : Nat) (bytes : List Nat) (hk : key < 256)
    (hb : ∀ b ∈ bytes, b < 256) :
    decodeCfEmail (encodeCfEmail key bytes) = String.mk (bytes.map Char.ofNat) := by
  have henc : encodeCfEmail key bytes =
      String.mk (toHexDigit (key / 16) :: toHexDigit (key % 16) ::
        bytes.flatMap (fun b => toHex2 (b ^^^ key))) := by
    simp [encodeCfEmail, toHex2]
  have hparse : jsParseHex2 [toHexDigit (key / 16), toHexDigit (key % 16)] = some key := by
    have := jsParseHex2_toHex2 key hk
    simpa [toHex2] using this
  rw [henc, decodeCfEmail_cons, hparse]
  simp only [Option.getD_some]
  rw [decodeLoop_encode key hk bytes hb]

/-- C9, witness: key 42 over the bytes of `"hi"`. -/
theorem decodeCfEmail_left_inverse_witness :
    decodeCfEmail (encodeCfEmail 42 [104, 105]) = "hi" := by
  rw [decodeCfEmail_left_inverse 42 [104, 105] (by decide) (by decide)]
  decide

/-! ### Claim C3: the offline end-to-end scenario -/

/-- C3, counterexample: in the claimed scenario the patch is NOT only
status + timestamp — the SIC value `"25110"` has prefix 25, which falls in
the Manufacturing range 10-33, so an Industry field is derived and written
even though every network probe failed. -/
theorem processRecord_offline_counterexample :
    acmeOfflinePatch.industry = some "C — Manufacturing" ∧
      acmeOfflinePatch.status = "No domain or contacts found" := by
  decide

/-- C3 (amended): with every probe failing, the record
`{company: "Acme Widgets Ltd", sic: "25110", …blank…}` yields status
`"No domain or contacts found"` and a patch containing no domain, e-mail or
phone — but containing the derived industry `"C — Manufacturing"` alongside
status and timestamp. -/
theorem processRecord_offline_amended :
    acmeOfflinePatch.status = "No domain or contacts found" ∧
      acmeOfflinePatch.domain = none ∧ acmeOfflinePatch.email = none ∧
      acmeOfflinePatch.phone = none ∧
      acmeOfflinePatch.industry = some "C — Manufacturing" := by
  decide

end FindEnrich
